import Mathlib

/-!
Verification of the dwatch repository (a terminal watcher that repeatedly
runs shell commands, extracts the numeric tokens of every output line,
and renders per-position deltas and statistics).

Shallow embedding conventions:
* Lines are modelled as `List Char`; the numeric ranges produced by the
  tokenizer are character-index ranges (`RangeN`), matching the byte
  indices of the Rust code on ASCII input.
* Rust `i64` values are modelled as `Int` with the explicit
  `-2^63 ≤ v ≤ 2^63 - 1` range check performed by `str::parse::<i64>`;
  the i64 subtraction of the delta loop is modelled by two's-complement
  wrapping (`wrap64`), the release-build semantics of Rust overflow.
* The `DefaultHasher` fingerprint of the literal chunks is modelled by the
  chunk list itself (an injective abstraction of the hash).
* `f64` arithmetic in the unit formatter is modelled with exact rationals;
  all inputs considered are exactly representable, away from rounding ties.
-/

/-- Numeric range in a line, from `std::ops::Range<usize>`.  The Rust field
`end` is a Lean keyword, so it is called `stop` here. -/
structure RangeN where
  start : Nat
  stop : Nat
deriving DecidableEq, Repr

/-- The tokenizer states of `ranges.rs` (`State::None/Space/Sign/Digit`). -/
inductive TState where
  | tnone
  | tspace
  | tsign
  | tdigit
deriving DecidableEq, Repr

/-- The loop body of `RangeParser::get_numeric_ranges` (ranges.rs:31-72),
written as a recursion over the remaining characters.  `point` is
`local_point.start`, `idx` is `local_index`; pushing to `local_vector`
becomes consing the emitted range onto the recursive result.  The
`[]` case is the end-of-string flush (ranges.rs:74-77). -/
def tokGo (sep : Char → Bool) : TState → Nat → Nat → List Char → List RangeN
  | st, point, idx, [] => if st = .tdigit then [⟨point, idx⟩] else []
  | .tnone, point, idx, c :: cs =>
      if sep c then tokGo sep .tspace point (idx + 1) cs
      else tokGo sep .tnone point (idx + 1) cs
  | .tspace, point, idx, c :: cs =>
      if c.isDigit then tokGo sep .tdigit idx (idx + 1) cs
      else if c = '-' || c = '+' then tokGo sep .tsign idx (idx + 1) cs
      else if !sep c then tokGo sep .tnone point (idx + 1) cs
      else tokGo sep .tspace point (idx + 1) cs
  | .tsign, point, idx, c :: cs =>
      if c.isDigit then tokGo sep .tdigit point (idx + 1) cs
      else if c = '-' || c = '+' then tokGo sep .tsign idx (idx + 1) cs
      else if sep c then tokGo sep .tspace point (idx + 1) cs
      else tokGo sep .tnone point (idx + 1) cs
  | .tdigit, point, idx, c :: cs =>
      if sep c then ⟨point, idx⟩ :: tokGo sep .tspace point (idx + 1) cs
      else if !c.isDigit then tokGo sep .tnone point (idx + 1) cs
      else tokGo sep .tdigit point (idx + 1) cs

/-- `RangeParser::get_numeric_ranges` (ranges.rs:22-80): start in `Space`
state at index 0 with an empty current point. -/
def get_numeric_ranges (sep : Char → Bool) (s : List Char) : List RangeN :=
  tokGo sep .tspace 0 0 s

/-- Rust `char::is_ascii_whitespace` (space, tab, newline, form feed, CR). -/
def asciiWs (c : Char) : Bool :=
  c = ' ' || c = '\t' || c = '\n' || c = '\x0C' || c = '\r'

/-- The separator predicate installed by `DwatchState::new` (dwatch.rs:228-230):
ASCII whitespace or one of the punctuation characters listed there (the
braces and quote characters are written via codepoints below). -/
def dwatchSep (c : Char) : Bool :=
  asciiWs c || c = '.' || c = ',' || c = ':' || c = ';' || c = '(' || c = ')' ||
  c = '[' || c = ']' || c = Char.ofNat 123 || c = Char.ofNat 125 ||
  c = '<' || c = '>' || c = Char.ofNat 39 || c = Char.ofNat 96 ||
  c = Char.ofNat 34 || c = '|' || c = '='

/-- The gap-building loop of `complement_ranges` (dwatch.rs:462-478):
one gap before each range (starting at `first`, initially 0) and a final
gap up to `size`. -/
def compGo (size : Nat) (first : Nat) : List RangeN → List RangeN
  | [] => [⟨first, size⟩]
  | x :: xs => ⟨first, x.start⟩ :: compGo size x.stop xs

/-- `complement_ranges` (dwatch.rs:462-481): gaps between/around the given
ranges, with empty gaps removed by the final `retain` (dwatch.rs:479). -/
def complement_ranges (xs : List RangeN) (size : Nat) : List RangeN :=
  (compGo size 0 xs).filter (fun r => decide (r.start ≠ r.stop))

/-- Substring of a line designated by a range (Rust `&line[r]` on character
indices). -/
def sliceRange (s : List Char) (r : RangeN) : List Char :=
  (s.drop r.start).take (r.stop - r.start)

/-- `parse_strings` (dwatch.rs:455-460): the literal chunks, i.e. the slices
at the complement of the numeric ranges. -/
def parse_strings (line : List Char) (ranges : List RangeN) : List (List Char) :=
  (complement_ranges ranges line.length).map (sliceRange line)

/-- Value of a digit string as a natural number. -/
def digitsVal : List Char → Nat
  | [] => 0
  | c :: cs => digitsVal cs + c.toNat.sub 48 * 10 ^ cs.length

/-- Rust `str::parse::<i64>`: optional sign, then one or more ASCII digits,
rejecting values outside `[-2^63, 2^63 - 1]`. -/
def parse_i64 (s : List Char) : Option Int :=
  let (neg, digits) :=
    match s with
    | '-' :: rest => (true, rest)
    | '+' :: rest => (false, rest)
    | _ => (false, s)
  if digits.isEmpty || !digits.all Char.isDigit then none
  else
    let v : Int := if neg then -(digitsVal digits : Int) else (digitsVal digits : Int)
    if -(2 ^ 63) ≤ v ∧ v ≤ 2 ^ 63 - 1 then some v else none

/-- `parse_numbers` (dwatch.rs:443-452): slice each numeric range (checking
that the range lies inside the line, Rust `line.get(r)`) and parse it as a
64-bit integer; the first failure aborts with an error, as `collect` over
`Result` does. -/
def parse_numbers (line : List Char) : List RangeN → Except String (List Int)
  | [] => .ok []
  | r :: rs =>
      match (if r.start ≤ r.stop ∧ r.stop ≤ line.length
             then parse_i64 (sliceRange line r) else none) with
      | none => .error "failed to parse number in range"
      | some n =>
          match parse_numbers line rs with
          | .error e => .error e
          | .ok ns => .ok (n :: ns)

/-- `LineNumbers` (dwatch.rs:27-37): current values, deltas, and running
min/max of deltas for one tracked line. -/
structure LineNumbers where
  values : List Int
  delta : List Int
  min : List Int
  max : List Int
deriving DecidableEq, Repr

/-- `LineNumbers::new` (dwatch.rs:41-49): values and delta start as the
parsed numbers, min/max as zero vectors of the same length. -/
def LineNumbers.new (numbers : List Int) : LineNumbers :=
  { values := numbers
    delta := numbers
    min := List.replicate numbers.length 0
    max := List.replicate numbers.length 0 }

/-- Two's-complement wrapping into the i64 range: the semantics of the
release-build Rust subtraction at dwatch.rs:335 when the mathematical
difference leaves `[-2^63, 2^63 - 1]` (a debug build would panic there
instead). -/
def wrap64 (v : Int) : Int :=
  (v + 2 ^ 63) % 2 ^ 64 - 2 ^ 63

/-- The delta loop of `writeln_line` (dwatch.rs:333-337): pairwise
`current - previous` in wrapping i64 arithmetic, stopping at the shorter
list as `zip` does. -/
def computeDeltas : List Int → List Int → List Int
  | a :: as, b :: bs => wrap64 (a - b) :: computeDeltas as bs
  | _, _ => []

/-- The `multizip` min update of dwatch.rs:341-345: each stored minimum is
replaced by `min(stored, delta)`; positions beyond the shorter list are
left unchanged, as the in-place mutation does. -/
def minZip : List Int → List Int → List Int
  | m :: ms, v :: vs => Min.min m v :: minZip ms vs
  | ms, _ => ms

/-- The `multizip` max update of dwatch.rs:341-345 (see `minZip`). -/
def maxZip : List Int → List Int → List Int
  | m :: ms, v :: vs => Max.max m v :: maxZip ms vs
  | ms, _ => ms

/-- The statistics update block of `writeln_line` (dwatch.rs:331-356):
equal token count refreshes values, deltas and running min/max; a count
change resets deltas and min/max to zero vectors of the new length. -/
def updateLineNumbers (stat : LineNumbers) (numbers : List Int) : LineNumbers :=
  if numbers.length = stat.values.length then
    let deltas := computeDeltas numbers stat.values
    { values := numbers
      delta := deltas
      min := minZip stat.min deltas
      max := maxZip stat.max deltas }
  else
    { values := numbers
      delta := List.replicate numbers.length 0
      min := List.replicate numbers.length 0
      max := List.replicate numbers.length 0 }

/-- Key of the `LineMap` (dwatch.rs:52, 324): positional line index paired
with the fingerprint of the literal chunks, the latter modelled by the
chunk list itself (`chunks_fingerprint` is an injective abstraction). -/
abbrev LineKey := Nat × List (List Char)

/-- The `HashMap<(u64, u64), LineNumbers>` of dwatch.rs:52, modelled as an
association list. -/
abbrev LineMap := List (LineKey × LineNumbers)

def mapFind (m : LineMap) (k : LineKey) : Option LineNumbers :=
  (m.find? (fun p => p.1 == k)).map (·.2)

def mapInsert (m : LineMap) (k : LineKey) (v : LineNumbers) : LineMap :=
  match m with
  | [] => [(k, v)]
  | (k₀, v₀) :: rest =>
      if k₀ == k then (k, v) :: rest else (k₀, v₀) :: mapInsert rest k v

/-- `writeln_line` (dwatch.rs:314-359): tokenize the line, slice literal
chunks, parse the 64-bit numbers (a parse failure is propagated as an
error), look up or create the `LineNumbers` entry for the line key, apply
the statistics update, and return the data that would be rendered. -/
def writeln_line (st : LineMap) (lineno : Nat) (line : List Char) :
    Except String (LineMap × List (List Char) × LineNumbers) :=
  let ranges := get_numeric_ranges dwatchSep line
  let strings := parse_strings line ranges
  match parse_numbers line ranges with
  | .error e => .error e
  | .ok numbers =>
      let key : LineKey := (lineno, strings)
      let stat₀ := (mapFind st key).getD (LineNumbers.new numbers)
      let stat₁ := updateLineNumbers stat₀ numbers
      .ok (mapInsert st key stat₁, strings, stat₁)

/-- Observable outcome of one shell command execution, the input of the
`run_command` model: whether `sh -c` could be spawned, the exit status,
the decoded output lines, the stderr text, and the wall-clock seconds the
child ran (the last is what a timeout would have to inspect). -/
structure CmdOutcome where
  spawnOk : Bool
  success : Bool
  exitCode : Int
  stdout : List (List Char)
  stderr : List Char
  duration : Nat
deriving DecidableEq, Repr

/-- Rust `str::trim` on the stderr text (ASCII whitespace at both ends). -/
def trimChars (s : List Char) : List Char :=
  (s.dropWhile asciiWs).reverse.dropWhile asciiWs |>.reverse

/-- `run_command` (dwatch.rs:412-440): spawn failure and nonzero exit
produce errors (the latter carrying trimmed stderr when non-empty,
otherwise the exit code); success returns the stdout lines.  The function
never consults `duration` — the code imposes no timeout, it blocks until
`Command::output` returns. -/
def run_command (o : CmdOutcome) : Except String (List (List Char)) :=
  if !o.spawnOk then .error "Failed to execute command"
  else if !o.success then
    if !(trimChars o.stderr).isEmpty then
      .error ("Command failed with stderr: " ++ String.mk (trimChars o.stderr))
    else .error ("Command failed with exit code: " ++ toString o.exitCode)
  else .ok o.stdout

/-- The line loop of `run` (dwatch.rs:289-298): feed each output line to
`writeln_line` under a running line counter; any error is propagated by
the `?` operator, aborting the pass. -/
def processLines (st : LineMap) (lineno : Nat) :
    List (List Char) → Except String (LineMap × Nat)
  | [] => .ok (st, lineno)
  | l :: ls =>
      match writeln_line st lineno l with
      | .error e => .error e
      | .ok (st', _, _) => processLines st' (lineno + 1) ls

/-- The join loop of `run` (dwatch.rs:283-299): worker results are joined
in command order; a worker that panicked (the `unwrap` of a failed
`run_command`, dwatch.rs:264) turns into a join error that `run` returns
via `?`, and a `writeln_line` error is returned the same way. -/
def runPassAux (st : LineMap) (lineno : Nat) :
    List (Except String (List (List Char))) → Except String (LineMap × Nat)
  | [] => .ok (st, lineno)
  | .error e :: _ => .error ("Thread Join error: " ++ e)
  | .ok out :: rest =>
      match processLines st lineno out with
      | .error e => .error e
      | .ok (st', lineno') => runPassAux st' lineno' rest

/-- One rendering pass of `run` over the joined command results. -/
def runPass (results : List (Except String (List (List Char)))) (st : LineMap) :
    Except String LineMap :=
  match runPassAux st 0 results with
  | .error e => .error e
  | .ok (st', _) => .ok st'

/-- The deadline update at the bottom of `run` (dwatch.rs:304-308): when the
condition-variable wait timed out, the next deadline accumulates on the
prior one (`next += interval`); an early wake leaves it unchanged.  The
current time (`now`) is passed to exhibit that the code never consults it
here. -/
def advance_deadline (next interval : Nat) (timedOut : Bool) (now : Nat) : Nat :=
  if timedOut then next + interval else next

/-- `format!` with two fixed decimal digits, the `{:.2}` of
`format_number`, on an exact rational (round to nearest, carried out on
the exact value; all inputs considered are away from ties). -/
def formatFixed2 (q : ℚ) : String :=
  if q < 0 then "-" ++ formatFixed2Nat (-q) else formatFixed2Nat q
where
  formatFixed2Nat (q : ℚ) : String :=
    let n : Nat := (⌊q * 100 + 1 / 2⌋).toNat
    let frac := n % 100
    toString (n / 100) ++ "." ++ (if frac < 10 then "0" ++ toString frac else toString frac)

/-- `format_number` (styles.rs:325-347): strict greater-than thresholds at
10^3/10^6/10^9 with suffixes K/M/G (Kbps/Mbps/Gbps in bit mode, plain
values getting the `_bps` suffix), two decimal digits. -/
def format_number (value : ℚ) (bit : Bool) : String :=
  let GIGA : ℚ := 1000000000
  let MEGA : ℚ := 1000000
  let KILO : ℚ := 1000
  if bit then
    if value > GIGA then formatFixed2 (value / GIGA) ++ "Gbps"
    else if value > MEGA then formatFixed2 (value / MEGA) ++ "Mbps"
    else if value > KILO then formatFixed2 (value / KILO) ++ "Kbps"
    else formatFixed2 value ++ "_bps"
  else
    if value > GIGA then formatFixed2 (value / GIGA) ++ "G"
    else if value > MEGA then formatFixed2 (value / MEGA) ++ "M"
    else if value > KILO then formatFixed2 (value / KILO) ++ "K"
    else formatFixed2 value

/-- `FOCUS_LIFETIME_LIMIT` (styles.rs:25). -/
def FOCUS_LIFETIME_LIMIT : Nat := 5

/-- The shared interactive state of styles.rs:19-23: the focused token
index (`FOCUS_INDEX`), the pass-lifetime counter (`FOCUS_LIFETIME`), the
global style counter (`GLOBAL_STYLE`), the per-token style override map
(`FOCUS_STYLE_MAP`), and the published focusable-item count
(`TOTAL_FOCUSABLE_ITEMS`). -/
structure FocusState where
  focusIndex : Option Nat
  lifetime : Nat
  globalStyle : Nat
  styleMap : List (Nat × Nat)
  total : Nat
deriving DecidableEq, Repr

/-- The SIGTSTP (CycleFocus) handler of main.rs:77-95: an unfocused state
focuses item 0; a focused item advances, wrapping to 0 once `f + 1`
reaches `TOTAL_FOCUSABLE_ITEMS`; the lifetime counter is reset to 0. -/
def onCycleFocus (s : FocusState) : FocusState :=
  let idx :=
    match s.focusIndex with
    | some f => if f + 1 ≥ s.total then 0 else f + 1
    | none => 0
  { s with focusIndex := some idx, lifetime := 0 }

/-- The `entry(idx).and_modify(+1).or_insert(1)` update of main.rs:99-104. -/
def bumpOverride (m : List (Nat × Nat)) (idx : Nat) : List (Nat × Nat) :=
  match m with
  | [] => [(idx, 1)]
  | (k, v) :: rest =>
      if k = idx then (k, v + 1) :: rest else (k, v) :: bumpOverride rest idx

/-- The SIGQUIT (CycleStyle) handler of main.rs:96-112: when focused, the
override counter of the focused item is bumped (first bump installs 1)
and the lifetime counter is reset; when unfocused, only the global style
counter is incremented — the lifetime counter is left untouched. -/
def onCycleStyle (s : FocusState) : FocusState :=
  match s.focusIndex with
  | some idx => { s with styleMap := bumpOverride s.styleMap idx, lifetime := 0 }
  | none => { s with globalStyle := s.globalStyle + 1 }

/-- `Focus::new` (styles.rs:168-183), the per-pass focus read: the lifetime
counter is incremented (`fetch_add` returns the previous value); when the
previous value already exceeded `FOCUS_LIFETIME_LIMIT` the focus index is
cleared and the pass renders unfocused, otherwise the stored index is
used.  Modelled from the spec: the orchestrator (the `Dwatch` pass loop,
absent from src/) invokes this exactly once per pass. -/
def focusNew (s : FocusState) : FocusState × Option Nat :=
  if s.lifetime > FOCUS_LIFETIME_LIMIT then
    ({ s with lifetime := s.lifetime + 1, focusIndex := none }, none)
  else
    ({ s with lifetime := s.lifetime + 1 }, s.focusIndex)

/-- The style names of the writer registry `WRITERS` (dwatch.rs:107-215),
in registration order; the rendering closures are ANSI output and are not
needed by the claims about registry indexing. -/
def WRITERS : List String :=
  ["default", "number+delta", "delta", "fancy", "fancy-network", "stats",
   "stats-network"]

/-- The writer lookup of `run` (dwatch.rs:269): the global style counter
reduced modulo the registry size at lookup time. -/
def writerIndex (style : Nat) : Nat := style % WRITERS.length

/-- Whether a string is an optional sign followed by one or more digits. -/
def signDigits : List Char → Bool
  | '-' :: rest => !rest.isEmpty && rest.all Char.isDigit
  | '+' :: rest => !rest.isEmpty && rest.all Char.isDigit
  | s => !s.isEmpty && s.all Char.isDigit

/-- Whether a range is bounded on both sides by a separator or a string
edge, the boundary condition of the claimed tokenizer grammar. -/
def boundedAt (sep : Char → Bool) (s : List Char) (r : RangeN) : Bool :=
  (r.start = 0 || sep (s.getD (r.start - 1) (Char.ofNat 0))) &&
  (r.stop = s.length || sep (s.getD r.stop (Char.ofNat 0)))

/-- The token set described by the C5 claim sentence (a definition that
follows the claim wording, for comparison with `get_numeric_ranges`): all
optional-sign-plus-digits substrings bounded on both sides by a separator
or a string edge, in order of position.  Boundedness makes such a
substring maximal, so maximality needs no extra condition. -/
def specClaimTokens (sep : Char → Bool) (s : List Char) : List RangeN :=
  (List.range (s.length + 1)).flatMap (fun i =>
    (List.range (s.length + 1)).filterMap (fun j =>
      if i < j && signDigits (sliceRange s ⟨i, j⟩) && boundedAt sep s ⟨i, j⟩
      then some ⟨i, j⟩ else none))

/-- Merge two position-sorted range lists by their offsets: the
re-interleaving "at their original offsets in order" used to state the
reconstruction property. -/
def mergeRanges (a b : List RangeN) : List RangeN :=
  match a, b with
  | [], ys => ys
  | xs, [] => xs
  | x :: xs, y :: ys =>
      if x.start ≤ y.start then x :: mergeRanges xs (y :: ys)
      else y :: mergeRanges (x :: xs) ys
termination_by a.length + b.length

/-- Literal complement chunks and token ranges re-interleaved at their
original offsets, concatenating the designated substrings. -/
def reconstruct (s : List Char) (rs : List RangeN) : List Char :=
  ((mergeRanges (complement_ranges rs s.length) rs).map (sliceRange s)).flatten

/-- Sortedness of a range list: starting at or after a lower bound, each
range nonempty and each later range starting strictly after the previous
stop (the tokenizer always leaves at least the closing separator between
two tokens). -/
def ChainFrom (b : Nat) : List RangeN → Prop
  | [] => True
  | r :: rs => b ≤ r.start ∧ r.start < r.stop ∧ ChainFrom (r.stop + 1) rs

/-- Lower bound of the ranges yet to be emitted by `tokGo`: the pending
token start while a token is open, the current index otherwise. -/
def tokLB : TState → Nat → Nat → Nat
  | .tsign, point, _ => point
  | .tdigit, point, _ => point
  | _, _, idx => idx

theorem chainFrom_mono {b b' : Nat} (h : b ≤ b') :
    ∀ {l : List RangeN}, ChainFrom b' l → ChainFrom b l
  | [], _ => trivial
  | r :: rs, ⟨h₁, h₂, h₃⟩ => ⟨le_trans h h₁, h₂, h₃⟩


/-- The separator set of the C5 claim example for `"-5,6"`: comma or
semicolon. -/
def commaSemiSep (c : Char) : Bool :=
  c = ',' || c = ';'

/-- The line map after feeding `"cpu 10"` at line index 0 to an empty map:
one entry keyed by the literal chunks, holding value 10 with zero
delta/min/max. -/
def cpuMap1 : LineMap :=
  [((0, [("cpu ".toList)]), LineNumbers.mk [10] [0] [0] [0])]

theorem tokLB_tnone (p i : Nat) : tokLB .tnone p i = i := rfl

theorem tokLB_tspace (p i : Nat) : tokLB .tspace p i = i := rfl

theorem tokLB_tsign (p i : Nat) : tokLB .tsign p i = p := rfl

theorem tokLB_tdigit (p i : Nat) : tokLB .tdigit p i = p := rfl

theorem tokGo_nil (sep : Char → Bool) (st : TState) (point idx : Nat) :
    tokGo sep st point idx [] = if st = .tdigit then [⟨point, idx⟩] else [] := by
  cases st <;> rfl

theorem tokGo_chain (sep : Char → Bool) :
    ∀ (cs : List Char) (st : TState) (point idx : Nat),
    (st = .tsign → point < idx) → (st = .tdigit → point < idx) →
    ChainFrom (tokLB st point idx) (tokGo sep st point idx cs) ∧
    ∀ r ∈ tokGo sep st point idx cs, r.stop ≤ idx + cs.length := by
  intro cs
  induction cs with
  | nil =>
      intro st point idx hsign hdigit
      rw [tokGo_nil]
      cases st with
      | tdigit =>
          rw [if_pos rfl, tokLB_tdigit]
          refine ⟨⟨le_refl _, hdigit rfl, trivial⟩, ?_⟩
          intro r hr
          rw [List.mem_singleton] at hr
          subst hr
          simp
      | tnone => exact ⟨trivial, by simp⟩
      | tspace => exact ⟨trivial, by simp⟩
      | tsign => exact ⟨trivial, by simp⟩
  | cons c cs ih =>
      intro st point idx hsign hdigit
      have hlen : (idx + 1) + cs.length = idx + (c :: cs).length := by
        simp [List.length_cons]; omega
      cases st with
      | tnone =>
          show ChainFrom idx (tokGo sep .tnone point idx (c :: cs)) ∧ _
          simp only [tokGo]
          split
          · have h := ih .tspace point (idx + 1) (by intro h; cases h) (by intro h; cases h)
            rw [tokLB_tspace] at h
            exact ⟨chainFrom_mono (Nat.le_succ idx) h.1, by rw [← hlen]; exact h.2⟩
          · have h := ih .tnone point (idx + 1) (by intro h; cases h) (by intro h; cases h)
            rw [tokLB_tnone] at h
            exact ⟨chainFrom_mono (Nat.le_succ idx) h.1, by rw [← hlen]; exact h.2⟩
      | tspace =>
          show ChainFrom idx (tokGo sep .tspace point idx (c :: cs)) ∧ _
          simp only [tokGo]
          split
          · have h := ih .tdigit idx (idx + 1) (by intro h; cases h)
              (fun _ => Nat.lt_succ_self idx)
            rw [tokLB_tdigit] at h
            exact ⟨h.1, by rw [← hlen]; exact h.2⟩
          · split
            · have h := ih .tsign idx (idx + 1) (fun _ => Nat.lt_succ_self idx)
                (by intro h; cases h)
              rw [tokLB_tsign] at h
              exact ⟨h.1, by rw [← hlen]; exact h.2⟩
            · split
              · have h := ih .tnone point (idx + 1) (by intro h; cases h)
                  (by intro h; cases h)
                rw [tokLB_tnone] at h
                exact ⟨chainFrom_mono (Nat.le_succ idx) h.1, by rw [← hlen]; exact h.2⟩
              · have h := ih .tspace point (idx + 1) (by intro h; cases h)
                  (by intro h; cases h)
                rw [tokLB_tspace] at h
                exact ⟨chainFrom_mono (Nat.le_succ idx) h.1, by rw [← hlen]; exact h.2⟩
      | tsign =>
          have hp : point < idx := hsign rfl
          show ChainFrom point (tokGo sep .tsign point idx (c :: cs)) ∧ _
          simp only [tokGo]
          split
          · have h := ih .tdigit point (idx + 1) (by intro h; cases h)
              (fun _ => Nat.lt_succ_of_lt hp)
            rw [tokLB_tdigit] at h
            exact ⟨h.1, by rw [← hlen]; exact h.2⟩
          · split
            · have h := ih .tsign idx (idx + 1) (fun _ => Nat.lt_succ_self idx)
                (by intro h; cases h)
              rw [tokLB_tsign] at h
              exact ⟨chainFrom_mono (le_of_lt hp) h.1, by rw [← hlen]; exact h.2⟩
            · split
              · have h := ih .tspace point (idx + 1) (by intro h; cases h)
                  (by intro h; cases h)
                rw [tokLB_tspace] at h
                exact ⟨chainFrom_mono (by omega) h.1, by rw [← hlen]; exact h.2⟩
              · have h := ih .tnone point (idx + 1) (by intro h; cases h)
                  (by intro h; cases h)
                rw [tokLB_tnone] at h
                exact ⟨chainFrom_mono (by omega) h.1, by rw [← hlen]; exact h.2⟩
      | tdigit =>
          have hp : point < idx := hdigit rfl
          show ChainFrom point (tokGo sep .tdigit point idx (c :: cs)) ∧ _
          simp only [tokGo]
          split
          · have h := ih .tspace point (idx + 1) (by intro h; cases h) (by intro h; cases h)
            rw [tokLB_tspace] at h
            constructor
            · exact ⟨le_refl _, hp, h.1⟩
            · intro r hr
              rcases List.mem_cons.mp hr with h₁ | h₁
              · subst h₁
                simp [List.length_cons]
              · have h₂ := h.2 r h₁
                omega
          · split
            · have h := ih .tnone point (idx + 1) (by intro h; cases h)
                (by intro h; cases h)
              rw [tokLB_tnone] at h
              exact ⟨chainFrom_mono (by omega) h.1, by rw [← hlen]; exact h.2⟩
            · have h := ih .tdigit point (idx + 1) (by intro h; cases h)
                (fun _ => Nat.lt_succ_of_lt hp)
              rw [tokLB_tdigit] at h
              exact ⟨h.1, by rw [← hlen]; exact h.2⟩

/-- The ranges emitted by the tokenizer are position-sorted, nonempty,
separated by at least one character, and stop within the line. -/
theorem get_numeric_ranges_chain (sep : Char → Bool) (s : List Char) :
    ChainFrom 0 (get_numeric_ranges sep s) ∧
    ∀ r ∈ get_numeric_ranges sep s, r.stop ≤ s.length := by
  have h := tokGo_chain sep s .tspace 0 0 (by intro h; cases h) (by intro h; cases h)
  rw [tokLB_tspace] at h
  exact ⟨h.1, by simpa using h.2⟩

theorem sliceRange_append (s : List Char) {a b c : Nat} (hab : a ≤ b) (hbc : b ≤ c) :
    sliceRange s ⟨a, b⟩ ++ sliceRange s ⟨b, c⟩ = sliceRange s ⟨a, c⟩ := by
  simp only [sliceRange]
  have hd : s.drop b = (s.drop a).drop (b - a) := by
    rw [List.drop_drop]
    congr 1
    omega
  rw [hd, ← List.take_add]
  congr 1
  omega

theorem sliceRange_full (s : List Char) : sliceRange s ⟨0, s.length⟩ = s := by
  simp [sliceRange]

theorem compGo_start_lb (size : Nat) :
    ∀ (xs : List RangeN) (first : Nat), ChainFrom first xs →
    ∀ g ∈ compGo size first xs, first ≤ g.start := by
  intro xs
  induction xs with
  | nil =>
      intro first _ g hg
      rw [compGo, List.mem_singleton] at hg
      subst hg
      exact le_refl _
  | cons x xs ih =>
      intro first hchain g hg
      rw [compGo, List.mem_cons] at hg
      rcases hg with h | h
      · subst h
        exact le_refl _
      · have h₂ := ih x.stop (chainFrom_mono (Nat.le_succ _) hchain.2.2) g h
        calc first ≤ x.start := hchain.1
          _ ≤ x.stop := le_of_lt hchain.2.1
          _ ≤ g.start := h₂


theorem mergeRanges_nil (ys : List RangeN) : mergeRanges [] ys = ys := by
  simp [mergeRanges]

theorem mergeRanges_nil_right (xs : List RangeN) : mergeRanges xs [] = xs := by
  cases xs <;> simp [mergeRanges]

theorem mergeRanges_cons_left (x : RangeN) (xs : List RangeN) (y : RangeN)
    (ys : List RangeN) (h : x.start ≤ y.start) :
    mergeRanges (x :: xs) (y :: ys) = x :: mergeRanges xs (y :: ys) := by
  rw [mergeRanges]
  simp [h]

theorem mergeRanges_cons_right (xs : List RangeN) (y : RangeN) (ys : List RangeN)
    (h : ∀ x ∈ xs, y.start < x.start) :
    mergeRanges xs (y :: ys) = y :: mergeRanges xs ys := by
  cases xs with
  | nil => rw [mergeRanges_nil, mergeRanges_nil]
  | cons x xs =>
      have hx : ¬(x.start ≤ y.start) := by
        have := h x (List.mem_cons_self x xs)
        omega
      rw [mergeRanges]
      simp [hx]

theorem merge_comp_flatten (s : List Char) :
    ∀ (toks : List RangeN) (first : Nat),
    ChainFrom first toks → (∀ r ∈ toks, r.stop ≤ s.length) →
    ((mergeRanges
        ((compGo s.length first toks).filter (fun r => decide (r.start ≠ r.stop)))
        toks).map (sliceRange s)).flatten
      = sliceRange s ⟨first, s.length⟩ := by
  intro toks
  induction toks with
  | nil =>
      intro first _ _
      rw [compGo]
      by_cases h : first = s.length
      · subst h
        simp [mergeRanges_nil_right, sliceRange]
      · rw [List.filter_cons_of_pos (by simpa using h), List.filter_nil,
          mergeRanges_nil_right]
        simp
  | cons t ts ih =>
      intro first hchain hbound
      obtain ⟨h₁, h₂, h₃⟩ := hchain
      have hts : t.stop ≤ s.length := hbound t (List.mem_cons_self t ts)
      have hchain' : ChainFrom t.stop ts := chainFrom_mono (Nat.le_succ _) h₃
      have hbound' : ∀ r ∈ ts, r.stop ≤ s.length := fun r hr =>
        hbound r (List.mem_cons_of_mem t hr)
      have hgap : ∀ g ∈ (compGo s.length t.stop ts).filter
          (fun r => decide (r.start ≠ r.stop)), t.start < g.start := by
        intro g hg
        have := compGo_start_lb s.length ts t.stop hchain' g (List.mem_of_mem_filter hg)
        omega
      rw [compGo]
      rcases eq_or_lt_of_le h₁ with heq | hlt
      · rw [List.filter_cons_of_neg (by simp [heq])]
        rw [mergeRanges_cons_right _ _ _ hgap]
        simp only [List.map_cons, List.flatten_cons]
        rw [ih t.stop hchain' hbound', heq]
        exact sliceRange_append s (le_of_lt h₂) hts
      · rw [List.filter_cons_of_pos (by simp; omega)]
        rw [mergeRanges_cons_left _ _ _ _ (le_of_lt hlt)]
        rw [mergeRanges_cons_right _ _ _ hgap]
        simp only [List.map_cons, List.flatten_cons]
        rw [ih t.stop hchain' hbound', ← List.append_assoc]
        rw [sliceRange_append s h₁ (le_of_lt h₂)]
        exact sliceRange_append s (by omega) hts

/-- Reconstruction for any token list that is sorted with nonempty gaps
and in-bounds stops: the complement chunks and the tokens, merged at
their offsets, concatenate back to the whole line. -/
theorem reconstruct_of_chain (s : List Char) (toks : List RangeN)
    (hchain : ChainFrom 0 toks) (hbound : ∀ r ∈ toks, r.stop ≤ s.length) :
    reconstruct s toks = s := by
  rw [reconstruct, complement_ranges, merge_comp_flatten s toks 0 hchain hbound]
  exact sliceRange_full s

theorem computeDeltas_eq_zipWith :
    ∀ (as bs : List Int),
      computeDeltas as bs = List.zipWith (fun a b => wrap64 (a - b)) as bs
  | [], [] => rfl
  | [], _ :: _ => rfl
  | _ :: _, [] => rfl
  | a :: as, b :: bs => by
      simp only [computeDeltas, List.zipWith_cons_cons]
      rw [computeDeltas_eq_zipWith as bs]

theorem minZip_eq_zipWith :
    ∀ (ms vs : List Int), ms.length = vs.length →
      minZip ms vs = List.zipWith Min.min ms vs
  | [], [], _ => rfl
  | [], _ :: _, h => by simp at h
  | _ :: _, [], h => by simp at h
  | m :: ms, v :: vs, h => by
      simp only [minZip, List.zipWith_cons_cons]
      rw [minZip_eq_zipWith ms vs (by simpa using h)]

theorem maxZip_eq_zipWith :
    ∀ (ms vs : List Int), ms.length = vs.length →
      maxZip ms vs = List.zipWith Max.max ms vs
  | [], [], _ => rfl
  | [], _ :: _, h => by simp at h
  | _ :: _, [], h => by simp at h
  | m :: ms, v :: vs, h => by
      simp only [maxZip, List.zipWith_cons_cons]
      rw [maxZip_eq_zipWith ms vs (by simpa using h)]

theorem runPassAux_ok_all_ok :
    ∀ (res : List (Except String (List (List Char)))) (st : LineMap) (lineno : Nat),
    (runPassAux st lineno res).isOk = true → ∀ r ∈ res, r.isOk = true := by
  intro res
  induction res with
  | nil => intro st lineno _ r hr; cases hr
  | cons c rest ih =>
      intro st lineno h r hr
      cases c with
      | error e => simp [runPassAux, Except.isOk, Except.toBool] at h
      | ok out =>
          rcases List.mem_cons.mp hr with h₁ | h₁
          · subst h₁; rfl
          · rw [runPassAux] at h
            cases hp : processLines st lineno out with
            | error e => rw [hp] at h; simp [Except.isOk, Except.toBool] at h
            | ok p => exact ih p.1 p.2 (by rw [hp] at h; exact h) r h₁

/-- C3: when the deadline wait expires without an early wake, the next
deadline accumulates on the prior one (`next += interval`) and never
depends on the current time, so after k timed-out passes the deadline is
the starting deadline plus k intervals, however long the passes took. -/
theorem deadline_accumulates (next interval now now' : Nat) :
    advance_deadline next interval true now = next + interval
    ∧ advance_deadline next interval true now
        = advance_deadline next interval true now'
    ∧ ∀ (k n₀ : Nat),
        (fun n => advance_deadline n interval true now)^[k] n₀ = n₀ + k * interval := by
  refine ⟨rfl, rfl, ?_⟩
  intro k
  induction k with
  | zero => intro n₀; simp
  | succ k ih =>
      intro n₀
      rw [Function.iterate_succ_apply', ih n₀]
      simp only [advance_deadline, if_true]
      ring

/-- C9: the unit formatter uses strict greater-than thresholds at
10^3/10^6/10^9 with two decimal digits and K/M/G suffixes (bit-rate
variants in bit mode): 999 and 1000 are not promoted, 1001 becomes 1.00K,
and 1.5e9 in bit mode becomes 1.50Gbps. -/
theorem format_number_strict_thresholds :
    format_number 999 false = "999.00"
    ∧ format_number 1000 false = "1000.00"
    ∧ format_number 1001 false = "1.00K"
    ∧ format_number 1500000000 true = "1.50Gbps" := by
  refine ⟨?_, ?_, ?_, ?_⟩ <;>
    · simp only [format_number, formatFixed2, formatFixed2.formatFixed2Nat]
      norm_num
      decide

/-- C10: an unfocused CycleStyle event increments the global style counter
without wrapping, and the writer index used by a pass is that counter
reduced modulo the registry size, which is always in bounds. -/
theorem writer_index_in_bounds (g lt t : Nat) (m : List (Nat × Nat)) :
    (onCycleStyle ⟨none, lt, g, m, t⟩).globalStyle = g + 1
    ∧ writerIndex g < WRITERS.length
    ∧ (WRITERS[writerIndex g]?).isSome = true := by
  refine ⟨rfl, ?_, ?_⟩
  · exact Nat.mod_lt g (by decide)
  · have hb : writerIndex g < WRITERS.length := Nat.mod_lt g (by decide)
    rw [List.getElem?_eq_getElem hb]
    rfl

/-- C5 counterexample: on the input string made of two minus signs and a
digit, the tokenizer does not emit "exactly the maximal
optional-sign-plus-digits substrings bounded on both sides by a separator
or a string edge": it emits the range of the final two characters, whose
left neighbour is a minus sign, not a separator; the claimed token set
(`specClaimTokens`, written from the claim wording) is empty there. -/
theorem tokenizer_not_separator_bounded :
    get_numeric_ranges asciiWs ("--5".toList)
      ≠ specClaimTokens asciiWs ("--5".toList)
    ∧ get_numeric_ranges asciiWs ("--5".toList) = [⟨1, 3⟩]
    ∧ specClaimTokens asciiWs ("--5".toList) = [] := by
  refine ⟨?_, ?_, ?_⟩ <;> decide

/-- C5 (amended): the tokenizer emits ordered, disjoint, nonempty ranges
stopping inside the string; on the claim examples it yields zero tokens
for "v2", exactly the token "2" for "2 v3", exactly the tokens "-5" and
"6" for "-5,6" under comma/semicolon separators, and zero tokens for a
lone sign; the left boundary of a token may also be a sign character (the
machine restarts the token at the last sign of a sign run, so "--5"
yields exactly the token "-5"). -/
theorem tokenizer_examples :
    get_numeric_ranges asciiWs ("v2".toList) = []
    ∧ get_numeric_ranges asciiWs ("2 v3".toList) = [⟨0, 1⟩]
    ∧ sliceRange ("2 v3".toList) ⟨0, 1⟩ = "2".toList
    ∧ get_numeric_ranges commaSemiSep ("-5,6".toList) = [⟨0, 2⟩, ⟨3, 4⟩]
    ∧ sliceRange ("-5,6".toList) ⟨0, 2⟩ = "-5".toList
    ∧ sliceRange ("-5,6".toList) ⟨3, 4⟩ = "6".toList
    ∧ get_numeric_ranges asciiWs ("+".toList) = []
    ∧ get_numeric_ranges asciiWs ("-".toList) = []
    ∧ get_numeric_ranges asciiWs ("--5".toList) = [⟨1, 3⟩]
    ∧ sliceRange ("--5".toList) ⟨1, 3⟩ = "-5".toList
    ∧ ∀ (sep : Char → Bool) (s : List Char),
        ChainFrom 0 (get_numeric_ranges sep s)
        ∧ (get_numeric_ranges sep s).all
            (fun r => decide (r.stop ≤ s.length)) = true := by
  refine ⟨by decide, by decide, by decide, by decide, by decide, by decide,
    by decide, by decide, by decide, by decide, ?_⟩
  intro sep s
  have h := get_numeric_ranges_chain sep s
  refine ⟨h.1, ?_⟩
  rw [List.all_eq_true]
  intro r hr
  simpa using h.2 r hr

/-- C6: the complement chunks never include an empty range, and for every
separator predicate and every input line the literal complement chunks
and the numeric token substrings, re-interleaved at their original
offsets in order, reconstruct exactly the original string. -/
theorem complement_reconstructs (sep : Char → Bool) (s : List Char) :
    (complement_ranges (get_numeric_ranges sep s) s.length).all
        (fun r => decide (r.start ≠ r.stop)) = true
    ∧ reconstruct s (get_numeric_ranges sep s) = s := by
  constructor
  · rw [List.all_eq_true]
    intro r hr
    rw [complement_ranges] at hr
    exact (List.mem_filter.mp hr).2
  · have h := get_numeric_ranges_chain sep s
    exact reconstruct_of_chain s _ h.1 h.2

/-- C4 counterexample: with a stored value -1 and a current value
2^63 - 1 (both parseable in-range i64 inputs, same LineKey, equal token
count), the program's i64 subtraction wraps to -2^63, not the
mathematical difference 2^63, both at the update itself and through the
full `writeln_line` pipeline (the line "-1" followed by the line
"9223372036854775807" at the same index share the empty chunk list, so
they hit the same entry). -/
theorem tracker_delta_wraps :
    (updateLineNumbers (LineNumbers.mk [-1] [0] [0] [0])
        [9223372036854775807]).delta = [-9223372036854775808]
    ∧ (writeln_line [] 0 ("-1".toList)).toOption.map (fun x => x.1)
        = some [((0, []), LineNumbers.mk [-1] [0] [0] [0])]
    ∧ (writeln_line [((0, []), LineNumbers.mk [-1] [0] [0] [0])] 0
        ("9223372036854775807".toList)).toOption.map (fun x => x.2.2.delta)
        = some [-9223372036854775808]
    ∧ (9223372036854775807 : Int) - (-1) = 9223372036854775808
    ∧ (updateLineNumbers (LineNumbers.mk [-1] [0] [0] [0])
        [9223372036854775807]).delta
        ≠ [(9223372036854775807 : Int) - (-1)] := by
  refine ⟨by decide, by decide, by decide, by decide, by decide⟩

/-- C4 (amended): when the current token count equals the stored count
(and the stored statistics are well-formed, all sequences of equal
length), the update sets every delta position to the two's-complement
64-bit wrapping difference of current and previous — which equals the
mathematical difference current[i] − previous[i] whenever that
difference fits in i64 — replaces the stored values, and folds the new
delta into the running min/max; when the counts differ, delta, min and
max are reset to zero vectors of the new length.  Concretely, feeding
"cpu 10" then "cpu 15" at line index 0 yields delta [5]; feeding
"cpu 10" then "cpu 1 2" yields delta [0,0]. -/
theorem tracker_update_spec (stat : LineNumbers) (numbers : List Int) :
    (numbers.length = stat.values.length →
      stat.min.length = stat.values.length →
      stat.max.length = stat.values.length →
      updateLineNumbers stat numbers =
        { values := numbers
          delta := List.zipWith (fun a b => wrap64 (a - b)) numbers stat.values
          min := List.zipWith Min.min stat.min
            (List.zipWith (fun a b => wrap64 (a - b)) numbers stat.values)
          max := List.zipWith Max.max stat.max
            (List.zipWith (fun a b => wrap64 (a - b)) numbers stat.values) })
    ∧ (∀ v : Int, -(2 ^ 63) ≤ v → v ≤ 2 ^ 63 - 1 → wrap64 v = v)
    ∧ (numbers.length ≠ stat.values.length →
      updateLineNumbers stat numbers =
        { values := numbers
          delta := List.replicate numbers.length 0
          min := List.replicate numbers.length 0
          max := List.replicate numbers.length 0 })
    ∧ (writeln_line [] 0 ("cpu 10".toList)).toOption.map (fun x => x.1)
        = some cpuMap1
    ∧ (writeln_line cpuMap1 0 ("cpu 15".toList)).toOption.map
        (fun x => x.2.2.delta) = some [5]
    ∧ (writeln_line cpuMap1 0 ("cpu 1 2".toList)).toOption.map
        (fun x => x.2.2.delta) = some [0, 0] := by
  refine ⟨?_, ?_, ?_, by decide, by decide, by decide⟩
  · intro hlen hmin hmax
    have hd : (List.zipWith (fun a b => wrap64 (a - b)) numbers stat.values).length
        = stat.values.length := by
      rw [List.length_zipWith]
      omega
    rw [updateLineNumbers, if_pos hlen]
    dsimp only
    rw [computeDeltas_eq_zipWith,
      minZip_eq_zipWith _ _ (by rw [hd, hmin]), maxZip_eq_zipWith _ _ (by rw [hd, hmax])]
  · intro v h₁ h₂
    rw [wrap64]
    omega
  · intro hlen
    rw [updateLineNumbers, if_neg hlen]

/-- C4 witness: the equal-count branch applied to the stored entry for
"cpu 10" with new value 15, the wrapping difference agreeing with the
mathematical one at the in-range value 5, and the count-change branch
applied with two new values, at concrete inputs. -/
theorem tracker_update_spec_witness :
    updateLineNumbers (LineNumbers.mk [10] [0] [0] [0]) [15] =
      { values := [15], delta := [wrap64 (15 - 10)], min := [Min.min 0 (wrap64 (15 - 10))],
        max := [Max.max 0 (wrap64 (15 - 10))] }
    ∧ wrap64 5 = 5
    ∧ updateLineNumbers (LineNumbers.mk [10] [0] [0] [0]) [1, 2] =
      { values := [1, 2], delta := [0, 0], min := [0, 0], max := [0, 0] } :=
  ⟨(tracker_update_spec (LineNumbers.mk [10] [0] [0] [0]) [15]).1
      (by decide) (by decide) (by decide),
   (tracker_update_spec (LineNumbers.mk [10] [0] [0] [0]) [15]).2.1 5
      (by decide) (by decide),
   (tracker_update_spec (LineNumbers.mk [10] [0] [0] [0]) [1, 2]).2.2.1
      (by decide)⟩

/-- C1 counterexample: a single failed command aborts the whole pass — the
worker's `unwrap` panic surfaces as a join error that `run` returns — and
a line whose grammar-matched token overflows 64-bit parsing makes
`writeln_line` return an error (propagated by `run`) instead of rendering
the line, so such errors are not confined to inline output. -/
theorem command_error_aborts_pass :
    runPass [Except.error "Command failed with exit code: 1"] []
      = Except.error "Thread Join error: Command failed with exit code: 1"
    ∧ (writeln_line [] 0 ("99999999999999999999".toList)).isOk = false := by
  refine ⟨rfl, by decide⟩

/-- C1 (amended): errors of a single command or line are not rendered
inline — they abort the pass: if the pass completes without error then
every command result was a success, and a line whose numbers fail 64-bit
parsing always makes `writeln_line` itself fail. -/
theorem pass_ok_requires_all_ok
    (res : List (Except String (List (List Char)))) (st : LineMap)
    (lineno : Nat) (line : List Char) :
    ((runPass res st).isOk = true → ∀ r ∈ res, r.isOk = true)
    ∧ ((parse_numbers line (get_numeric_ranges dwatchSep line)).isOk = false →
        (writeln_line st lineno line).isOk = false) := by
  constructor
  · intro h
    rw [runPass] at h
    cases hp : runPassAux st 0 res with
    | error e => rw [hp] at h; simp [Except.isOk, Except.toBool] at h
    | ok p => exact runPassAux_ok_all_ok res st 0 (by rw [hp]; rfl)
  · intro h
    rw [writeln_line]
    cases hp : parse_numbers line (get_numeric_ranges dwatchSep line) with
    | error e => rfl
    | ok ns => rw [hp] at h; simp [Except.isOk, Except.toBool] at h

/-- C1 witness: a pass over one successful empty-output command is
error-free, hence all its command results are successes; and the 20-digit
overflow line makes `writeln_line` fail. -/
theorem pass_ok_requires_all_ok_witness :
    (∀ r ∈ ([Except.ok []] : List (Except String (List (List Char)))),
        Except.isOk r = true)
    ∧ (writeln_line [] 0 ("99999999999999999999".toList)).isOk = false :=
  ⟨(pass_ok_requires_all_ok [Except.ok []] [] 0 []).1 (by decide),
   (pass_ok_requires_all_ok [] [] 0 ("99999999999999999999".toList)).2 (by decide)⟩

/-- C2 counterexample: a command whose execution lasts 3600 seconds, far
beyond the default 1-second interval used as the claimed timeout, is not
terminated and yields its normal stdout rather than any timeout error —
`run_command` has no timeout path at all. -/
theorem run_command_no_timeout :
    run_command ⟨true, true, 0, ["hi".toList], [], 3600⟩
      = Except.ok ["hi".toList]
    ∧ (run_command ⟨true, true, 0, ["hi".toList], [], 3600⟩).isOk = true := by
  refine ⟨rfl, rfl⟩

/-- C2 (amended): `run_command` enforces no timeout: its result is
entirely independent of how long the command ran, and it succeeds exactly
when the command was spawned and exited with success, returning the
child's stdout in that case. -/
theorem run_command_ignores_duration (o : CmdOutcome) (d : Nat) :
    run_command { o with duration := d } = run_command o
    ∧ (run_command o).isOk = (o.spawnOk && o.success) := by
  obtain ⟨sp, su, ec, out, err, du⟩ := o
  constructor
  · rfl
  · cases sp with
    | false => rfl
    | true =>
        cases su with
        | true => rfl
        | false =>
            by_cases h : (trimChars err).isEmpty <;>
              simp [run_command, h, Except.isOk, Except.toBool]

/-- C7 counterexample: a CycleStyle event received while unfocused leaves
the lifetime counter untouched (here at 3) instead of resetting it to 0 —
the reset in the SIGQUIT handler sits inside the focused branch only. -/
theorem cycleStyle_unfocused_keeps_lifetime :
    (onCycleStyle ⟨none, 3, 0, [], 0⟩).lifetime = 3
    ∧ (onCycleStyle ⟨none, 3, 0, [], 0⟩).lifetime ≠ 0 := by
  refine ⟨rfl, by decide⟩

/-- C7 (amended): the lifetime counter increments exactly once per pass
(the per-pass `Focus::new` read); once it exceeds the fixed limit of 5
the next pass clears the focus with no interaction needed, and otherwise
the stored focus is used unchanged; a CycleFocus event always resets the
counter to 0; a CycleStyle event resets it only when focused — while
unfocused it leaves the counter unchanged and instead increments the
global style counter. -/
theorem focus_lifetime_spec (s : FocusState) :
    (focusNew s).1.lifetime = s.lifetime + 1
    ∧ (s.lifetime > FOCUS_LIFETIME_LIMIT →
        (focusNew s).1.focusIndex = none ∧ (focusNew s).2 = none)
    ∧ (s.lifetime ≤ FOCUS_LIFETIME_LIMIT →
        (focusNew s).1.focusIndex = s.focusIndex ∧ (focusNew s).2 = s.focusIndex)
    ∧ (onCycleFocus s).lifetime = 0
    ∧ (∀ i, s.focusIndex = some i → (onCycleStyle s).lifetime = 0)
    ∧ (s.focusIndex = none →
        (onCycleStyle s).lifetime = s.lifetime
        ∧ (onCycleStyle s).globalStyle = s.globalStyle + 1) := by
  refine ⟨?_, ?_, ?_, rfl, ?_, ?_⟩
  · rw [focusNew]
    split <;> rfl
  · intro h
    rw [focusNew, if_pos h]
    exact ⟨rfl, rfl⟩
  · intro h
    rw [focusNew, if_neg (by omega)]
    exact ⟨rfl, rfl⟩
  · intro i h
    rw [onCycleStyle, h]
  · intro h
    rw [onCycleStyle, h]
    exact ⟨rfl, rfl⟩

/-- C7 witness: at lifetime 6 (exceeding the limit 5) the next pass clears
the focus; at lifetime 5 it is kept; an unfocused CycleStyle at lifetime 4
keeps the counter and bumps the global style; a focused CycleStyle resets
the counter. -/
theorem focus_lifetime_spec_witness :
    ((focusNew ⟨some 1, 6, 0, [], 3⟩).1.focusIndex = none
      ∧ (focusNew ⟨some 1, 6, 0, [], 3⟩).2 = none)
    ∧ ((focusNew ⟨some 1, 5, 0, [], 3⟩).1.focusIndex = some 1
      ∧ (focusNew ⟨some 1, 5, 0, [], 3⟩).2 = some 1)
    ∧ (onCycleStyle ⟨some 2, 4, 0, [], 3⟩).lifetime = 0
    ∧ ((onCycleStyle ⟨none, 4, 7, [], 3⟩).lifetime = 4
      ∧ (onCycleStyle ⟨none, 4, 7, [], 3⟩).globalStyle = 8) :=
  ⟨(focus_lifetime_spec ⟨some 1, 6, 0, [], 3⟩).2.1 (by decide),
   (focus_lifetime_spec ⟨some 1, 5, 0, [], 3⟩).2.2.1 (by decide),
   (focus_lifetime_spec ⟨some 2, 4, 0, [], 3⟩).2.2.2.2.1 2 rfl,
   (focus_lifetime_spec ⟨none, 4, 7, [], 3⟩).2.2.2.2.2 rfl⟩

/-- C8 counterexample: with `TOTAL_FOCUSABLE_ITEMS = 0` a CycleFocus event
is not a no-op: an unfocused controller becomes Focused(0), and a
controller focused at 2 is reset to Focused(0) rather than left
unchanged. -/
theorem cycleFocus_zero_total_not_noop :
    (onCycleFocus ⟨none, 4, 0, [], 0⟩).focusIndex = some 0
    ∧ onCycleFocus ⟨none, 4, 0, [], 0⟩ ≠ ⟨none, 4, 0, [], 0⟩
    ∧ (onCycleFocus ⟨some 2, 0, 0, [], 0⟩).focusIndex = some 0
    ∧ onCycleFocus ⟨some 2, 0, 0, [], 0⟩ ≠ ⟨some 2, 0, 0, [], 0⟩ := by
  refine ⟨rfl, by decide, rfl, by decide⟩

/-- C8 (amended): on CycleFocus an unfocused controller becomes Focused(0)
regardless of `TOTAL_FOCUSABLE_ITEMS`; Focused(i) becomes Focused(i+1)
when i+1 is below the total and Focused(0) otherwise, which agrees with
Focused((i+1) mod total) whenever i is below the total; with a total of 0
any state becomes Focused(0), not a no-op. -/
theorem cycleFocus_spec (s : FocusState) (i : Nat) :
    (s.focusIndex = none → (onCycleFocus s).focusIndex = some 0)
    ∧ (s.focusIndex = some i →
        (onCycleFocus s).focusIndex
          = some (if i + 1 ≥ s.total then 0 else i + 1))
    ∧ (s.focusIndex = some i → i < s.total →
        (onCycleFocus s).focusIndex = some ((i + 1) % s.total)) := by
  refine ⟨?_, ?_, ?_⟩
  · intro h
    rw [onCycleFocus, h]
  · intro h
    rw [onCycleFocus, h]
  · intro h hi
    rw [onCycleFocus, h]
    dsimp only
    congr 1
    rcases Nat.lt_or_ge (i + 1) s.total with h₂ | h₂
    · rw [if_neg (by omega), Nat.mod_eq_of_lt h₂]
    · have : i + 1 = s.total := by omega
      rw [if_pos h₂, this, Nat.mod_self]

/-- C8 witness: with 3 focusable items, CycleFocus from Unfocused focuses
item 0; from Focused(1) it advances to Focused(2) = (1+1) mod 3; from
Focused(2) it wraps to Focused(0) = (2+1) mod 3. -/
theorem cycleFocus_spec_witness :
    (onCycleFocus ⟨none, 0, 0, [], 3⟩).focusIndex = some 0
    ∧ (onCycleFocus ⟨some 1, 0, 0, [], 3⟩).focusIndex = some ((1 + 1) % 3)
    ∧ (onCycleFocus ⟨some 2, 0, 0, [], 3⟩).focusIndex = some ((2 + 1) % 3) :=
  ⟨(cycleFocus_spec ⟨none, 0, 0, [], 3⟩ 0).1 rfl,
   (cycleFocus_spec ⟨some 1, 0, 0, [], 3⟩ 1).2.2 rfl (by decide),
   (cycleFocus_spec ⟨some 2, 0, 0, [], 3⟩ 2).2.2 rfl (by decide)⟩
